import Mathlib

/-!
Verification development for the documentRAG backend.

We give a shallow embedding of the core pure logic of the repository:
- `backend/app/ingest.py` (`chunk_text`),
- `backend/app/vector_store.py` (`InMemoryVectorStore`),
- `backend/app/services.py` (`CodeGenerationService`),
and prove the behavioural properties stated in the specification.

Text is modelled as `List Char`; Python's unbounded `while` loop inside
`chunk_text`'s hard-split branch is modelled with an explicit fuel
parameter (`none` = the fuel ran out before the loop finished, so a
result `none` for every fuel value is non-termination of the source loop).
-/
namespace Ingest

/-- Python `str.strip()` whitespace test (space, tab, newline, carriage
return, vertical tab, form feed). -/
def isPySpace (c : Char) : Bool :=
  c = ' ' || c = '\t' || c = '\n' || c = '\r' || c.toNat = 11 || c.toNat = 12

/-- Python `s.strip()`: drop whitespace from both ends. -/
def pyStrip (s : List Char) : List Char :=
  ((s.dropWhile isPySpace).reverse.dropWhile isPySpace).reverse

/-- Model of `re.sub(r"[ \t]+", " ", t)` as a left-to-right scan: a run of spaces
and tabs becomes one space.  The boolean records whether the previous
character belonged to a run. -/
def collapseSpacesGo : Bool → List Char → List Char
  | _, [] => []
  | prevBlank, c :: rest =>
    if c = ' ' || c = '\t' then
      (if prevBlank then [] else [' ']) ++ collapseSpacesGo true rest
    else
      c :: collapseSpacesGo false rest

/-- Model of `re.sub(r"\n{3,}", "\n\n", t)` as a left-to-right scan: `k` counts the
newlines already seen in the current run; from the third one on nothing is
emitted. -/
def collapseNLGo : Nat → List Char → List Char
  | _, [] => []
  | k, '\n' :: rest => (if k < 2 then ['\n'] else []) ++ collapseNLGo (k + 1) rest
  | _, c :: rest => c :: collapseNLGo 0 rest

/-- Python `t.split("\n\n")`: non-overlapping left-to-right split on the
two-character separator.  `acc` holds the current piece reversed. -/
def splitOnNNGo : List Char → List Char → List (List Char)
  | acc, [] => [acc.reverse]
  | acc, '\n' :: '\n' :: rest => acc.reverse :: splitOnNNGo [] rest
  | acc, c :: rest => splitOnNNGo (c :: acc) rest

/-- Python `"\n\n".join(cur)`. -/
def joinNN : List (List Char) → List Char
  | [] => []
  | [x] => x
  | x :: xs => x ++ '\n' :: '\n' :: joinNN xs

/-- The `flush()` closure of `chunk_text`: join the buffer with blank
lines, strip, and emit it unless empty. -/
def flushChunk (cur : List (List Char)) : List (List Char) :=
  let c := pyStrip (joinNN cur)
  if c.isEmpty then [] else [c]

/-- The hard-split `while start < len(p)` loop of `chunk_text`
(ingest.py lines 118-122), with fuel.  Each step appends
`p[start:end].strip()` with `end = min(len(p), start + max_chars)` and then
sets `start = max(0, end - overlap_chars)` (truncated subtraction on `Nat`
coincides with Python's `max(0, ...)`). -/
def hardSplitGo (p : List Char) (maxC ovl : Nat) :
    Nat → Nat → List (List Char) → Option (List (List Char))
  | 0, _, _ => none
  | fuel + 1, start, acc =>
    if start < p.length then
      hardSplitGo p maxC ovl fuel (min p.length (start + maxC) - ovl)
        (acc ++ [pyStrip ((p.drop start).take (min p.length (start + maxC) - start))])
    else some acc

/-- The `for p in paras` loop of `chunk_text` (ingest.py lines 114-132),
carrying the emitted chunks, the current buffer `cur` and `cur_len`.
Mirrors the source: an oversized paragraph flushes the buffer and is
hard-split; otherwise `add_len` is computed against the old buffer, the
buffer is flushed when it would overflow, and the paragraph is appended. -/
def packGo (maxC ovl fuel : Nat) :
    List (List Char) → List (List Char) → List (List Char) → Nat →
    Option (List (List Char))
  | [], chunks, cur, _ => some (chunks ++ flushChunk cur)
  | p :: ps, chunks, cur, curLen =>
    if maxC < p.length then
      match hardSplitGo p maxC ovl fuel 0 [] with
      | none => none
      | some slices => packGo maxC ovl fuel ps (chunks ++ flushChunk cur ++ slices) [] 0
    else
      if maxC < curLen + (p.length + (if cur.isEmpty then 0 else 2)) then
        packGo maxC ovl fuel ps (chunks ++ flushChunk cur) [p]
          (p.length + (if cur.isEmpty then 0 else 2))
      else
        packGo maxC ovl fuel ps chunks (cur ++ [p])
          (curLen + (p.length + (if cur.isEmpty then 0 else 2)))

/-- Python `chunks[i-1][-overlap_chars:]`: the last `ovl` characters. -/
def takeLast (n : Nat) (l : List Char) : List Char := l.drop (l.length - n)

/-- The inter-chunk overlap pass of `chunk_text` (ingest.py lines 134-144):
for every chunk after the first, prepend the last `ovl` characters of the
previous chunk joined by a blank line, then strip. -/
def overlapPass (ovl : Nat) (chunks : List (List Char)) : List (List Char) :=
  if 0 < ovl ∧ 1 < chunks.length then
    match chunks with
    | [] => []
    | c0 :: rest =>
      c0 :: (chunks.zip rest).map (fun pr => pyStrip (takeLast ovl pr.1 ++ '\n' :: '\n' :: pr.2))
  else chunks

/-- Whitespace normalisation of `chunk_text` (ingest.py lines 92-95):
remove `\r`, collapse space/tab runs, collapse 3+ newlines to 2, strip. -/
def normalizeText (text : List Char) : List Char :=
  pyStrip (collapseNLGo 0 (collapseSpacesGo false (text.filter (fun c => c != '\r'))))

/-- Paragraph extraction (ingest.py line 99):
`[p.strip() for p in t.split("\n\n") if p.strip()]`. -/
def chunkParas (t : List Char) : List (List Char) :=
  ((splitOnNNGo [] t).map pyStrip).filter (fun p => !p.isEmpty)

/-- Model of `chunk_text(text, max_chars, overlap_chars)` (ingest.py lines 80-146),
with fuel bounding the hard-split `while` loop. -/
def chunkText (fuel : Nat) (text : List Char) (maxC ovl : Nat) :
    Option (List (List Char)) :=
  if text.isEmpty then some []
  else if (normalizeText text).isEmpty then some []
  else
    match packGo maxC ovl fuel (chunkParas (normalizeText text)) [] [] 0 with
    | none => none
    | some chunks => some (overlapPass ovl chunks)

/-- The concrete 120-character single paragraph of the specification's
hard-split example. -/
def paraC1 : List Char := List.replicate 120 'a'

/-- Two 50-character paragraphs separated by a blank line: each packs into
its own chunk of exactly `max_chars = 50` characters, so the overlap pass
makes the second returned chunk longer than `max_chars`. -/
def textC2 : List Char := List.replicate 50 'a' ++ '\n' :: '\n' :: List.replicate 50 'b'

/-- The chunks `chunk_text` returns for `textC2` with
`max_chars = 50, overlap_chars = 10`: the second one has 62 characters. -/
def chunksC2 : List (List Char) :=
  [List.replicate 50 'a', List.replicate 10 'a' ++ '\n' :: '\n' :: List.replicate 50 'b']

end Ingest

namespace VectorStore

/-- A metadata value: the app stores strings (doc_id, filename, path, type)
and integers (chunk_index).  Python's `md.get("doc_id") == doc_id` compares
a looked-up value against a string, so an integer value never matches. -/
inductive MetaVal where
  | s (v : String)
  | n (v : Int)
deriving DecidableEq

/-- A metadata dict, as an association list. -/
abbrev Metadata := List (String × MetaVal)

/-- The in-memory backend state of `InMemoryVectorStore`
(vector_store.py `_init_inmemory`, lines 35-39): four parallel lists.
Embedding floats are modelled with exact integers; the search claims only
concern the induced ordering and counts. -/
structure InMemoryVectorStore where
  ids : List String
  vectors : List (List Int)
  texts : List String
  metadatas : List Metadata
deriving DecidableEq

/-- The four parallel lists are positionally aligned (true of every state
the app reaches: `add_many` appends to all four, `delete_doc` filters all
four). -/
def Wf (st : InMemoryVectorStore) : Prop :=
  st.ids.length = st.vectors.length
    ∧ st.ids.length = st.texts.length
    ∧ st.ids.length = st.metadatas.length

instance (st : InMemoryVectorStore) : Decidable (Wf st) := by
  unfold Wf; infer_instance

/-- Model of `np.dot` on one row: the dot product of a stored vector and the query. -/
def dot : List Int → List Int → Int
  | [], _ => 0
  | _, [] => 0
  | a :: as, b :: bs => a * b + dot as bs

/-- The similarity scores `sims = mats.dot(query_vector)`
(vector_store.py line 76). -/
def simsOf (st : InMemoryVectorStore) (q : List Int) : List Int :=
  st.vectors.map (fun v => dot v q)

/-- The order `np.argsort(-sims)` sorts positions by: higher score first,
ties by position (the claims proved below do not depend on the tie order,
which numpy leaves unspecified for its default unstable sort). -/
def rankRel (sims : List Int) (i j : Nat) : Prop :=
  sims.getD j 0 < sims.getD i 0 ∨ (sims.getD i 0 = sims.getD j 0 ∧ i ≤ j)

instance (sims : List Int) : DecidableRel (rankRel sims) := fun i j => by
  unfold rankRel; infer_instance

instance (sims : List Int) : IsTotal Nat (rankRel sims) :=
  ⟨by intro i j; unfold rankRel; omega⟩

instance (sims : List Int) : IsTrans Nat (rankRel sims) :=
  ⟨by intro i j k; unfold rankRel; omega⟩

/-- One search result `{id, score, text, metadata}`
(vector_store.py line 80). -/
structure SearchHit where
  id : String
  score : Int
  text : String
  metadata : Metadata
deriving DecidableEq

/-- Model of `InMemoryVectorStore.search` on the in-memory branch
(vector_store.py lines 71-81): empty list on an empty index, otherwise
score every stored vector against the query, order positions by descending
score, keep the first `top_k`, and read the parallel lists at those
positions. -/
def search (st : InMemoryVectorStore) (q : List Int) (topK : Nat) : List SearchHit :=
  if st.vectors.length = 0 then []
  else
    ((List.insertionSort (rankRel (simsOf st q)) (List.range (simsOf st q).length)).take topK).map
      (fun i =>
        { id := st.ids.getD i "", score := (simsOf st q).getD i 0,
          text := st.texts.getD i "", metadata := st.metadatas.getD i [] })

/-- Model of `(self.metadatas[i] or {}).get("doc_id") == doc_id`
(vector_store.py lines 121-122): an absent key or a non-string value never
matches. -/
def isDocMatch (docId : String) (md : Metadata) : Bool :=
  md.lookup "doc_id" == some (MetaVal.s docId)

/-- The positions `delete_doc` keeps, in order. -/
def keepIdx (st : InMemoryVectorStore) (docId : String) : List Nat :=
  (List.range st.ids.length).filter (fun i => !(isDocMatch docId (st.metadatas.getD i [])))

/-- The positions `delete_doc` removes, in order (each one bumps the
`deleted` counter). -/
def removedIdx (st : InMemoryVectorStore) (docId : String) : List Nat :=
  (List.range st.ids.length).filter (fun i => isDocMatch docId (st.metadatas.getD i []))

/-- Model of `InMemoryVectorStore.delete_doc` on the in-memory branch
(vector_store.py lines 83-133): a falsy (empty) `doc_id` returns 0 without
touching the store; otherwise one pass over the positions keeps the
records whose metadata `doc_id` does not equal the argument and counts the
removed ones. -/
def deleteDoc (st : InMemoryVectorStore) (docId : String) : InMemoryVectorStore × Nat :=
  if docId = "" then (st, 0)
  else
    ({ ids := (keepIdx st docId).map (fun i => st.ids.getD i ""),
       vectors := (keepIdx st docId).map (fun i => st.vectors.getD i []),
       texts := (keepIdx st docId).map (fun i => st.texts.getD i ""),
       metadatas := (keepIdx st docId).map (fun i => st.metadatas.getD i []) },
     (removedIdx st docId).length)

/-- The store's records, position by position. -/
def records (st : InMemoryVectorStore) : List (String × List Int × String × Metadata) :=
  st.ids.zip (st.vectors.zip (st.texts.zip st.metadatas))

def recDefault : String × List Int × String × Metadata := ("", [], "", [])

def stC4 : InMemoryVectorStore :=
  ⟨["a", "b"], [[1], [2]], ["ta", "tb"],
   [[("doc_id", MetaVal.s "d1")], [("doc_id", MetaVal.s "d2")]]⟩

/-- Which backend a call was dispatched to. -/
inductive Backend where
  | chroma
  | memory
deriving DecidableEq

/-- A call to one of the three public methods of the store. -/
inductive StoreOp where
  | addManyOp (ids : List String) (vecs : List (List Int)) (texts : List String)
      (metas : Option (List Metadata))
  | searchOp (q : List Int) (topK : Nat)
  | deleteOp (docId : String)

/-- Model of `InMemoryVectorStore.add_many` on the in-memory branch
(vector_store.py lines 53-58): append record `i` for each `i` below
`len(ids)`; a `None` metadata argument defaults to one empty dict per id
(line 42-43). -/
def addMany (st : InMemoryVectorStore) (ids : List String) (vecs : List (List Int))
    (texts : List String) (metas : Option (List Metadata)) : InMemoryVectorStore :=
  { ids := st.ids ++ ids,
    vectors := st.vectors ++ vecs.take ids.length,
    texts := st.texts ++ texts.take ids.length,
    metadatas := st.metadatas ++ (metas.getD (ids.map fun _ => [])).take ids.length }

def emptyStore : InMemoryVectorStore := ⟨[], [], [], []⟩

/-- An `InMemoryVectorStore` instance as a whole: the per-instance
`use_chroma` flag, the in-memory lists, and a count of operations
dispatched to the persistent (Chroma) backend, whose behaviour lives
outside this repository. -/
structure VectorStoreState where
  useChroma : Bool
  chromaOps : Nat
  mem : InMemoryVectorStore
deriving DecidableEq

/-- Model of `InMemoryVectorStore.__init__` (vector_store.py lines 14-33).
`chromadbAvailable` models the module-level import outcome
(`CHROMADB_AVAILABLE`), `chromaInitRaises` whether constructing the client
or collection raised: in that case the constructor logs, runs
`_init_inmemory`, and sets `use_chroma = False` for this instance. -/
def initStore (chromadbAvailable : Bool) (chromaInitRaises : Bool) : VectorStoreState :=
  if chromadbAvailable then
    if chromaInitRaises then { useChroma := false, chromaOps := 0, mem := emptyStore }
    else { useChroma := true, chromaOps := 0, mem := emptyStore }
  else { useChroma := false, chromaOps := 0, mem := emptyStore }

/-- One public method call.  Each of `add_many`, `search`, `delete_doc`
branches on `self.use_chroma` (vector_store.py lines 44, 61, 91) and never
writes that flag; the Chroma branch is modelled only by its dispatch
(its results come from the external library). -/
def applyOp (vs : VectorStoreState) : StoreOp → VectorStoreState × Backend
  | .addManyOp ids vecs texts metas =>
    if vs.useChroma then ({ vs with chromaOps := vs.chromaOps + 1 }, .chroma)
    else ({ vs with mem := addMany vs.mem ids vecs texts metas }, .memory)
  | .searchOp _ _ =>
    if vs.useChroma then ({ vs with chromaOps := vs.chromaOps + 1 }, .chroma)
    else (vs, .memory)
  | .deleteOp docId =>
    if vs.useChroma then ({ vs with chromaOps := vs.chromaOps + 1 }, .chroma)
    else ({ vs with mem := (deleteDoc vs.mem docId).1 }, .memory)

/-- Run a sequence of method calls, collecting which backend served each. -/
def runOps : VectorStoreState → List StoreOp → VectorStoreState × List Backend
  | vs, [] => (vs, [])
  | vs, op :: ops =>
    ((runOps (applyOp vs op).1 ops).1, (applyOp vs op).2 :: (runOps (applyOp vs op).1 ops).2)

end VectorStore

namespace Services

/-! The generate_code retry loop (services.py lines 20-51) -/

/-- The errors that can escape one generation attempt: a transport or
inference failure raised inside `generate_assistant_response`
(llm_client.py lines 41 and 47), an extraction or JSON-decoding failure
(services.py lines 63 and 96), or a schema validation failure of the
constructed result (services.py line 71). -/
inductive GenError where
  | backend (msg : String)
  | invalidJson (msg : String)
  | validation (msg : String)
deriving DecidableEq

/-- The corrective hint appended to the instruction after a failed
attempt (services.py line 48). -/
def hintText : String := " (Ensure valid JSON output format)"

/-- The body of one `try`: call the LLM on the current instruction and
contexts, then parse and validate the raw output.  The LLM and the
parser are oracles indexed by the attempt number: what they return is
external to the loop being verified, and an exception from either is the
single caught exception of the source `try`. -/
def attemptCall {R : Type} (llm : Nat → String → List String → Except GenError String)
    (parse : String → Except GenError R) (attempt : Nat) (instr : String)
    (ctxs : List String) : Except GenError R :=
  match llm attempt instr ctxs with
  | .error e => .error e
  | .ok raw => parse raw

/-- The `for attempt in range(max_retries + 1)` loop of `generate_code`
(services.py lines 39-51): `remaining` attempts are left (3 at entry).
A successful attempt returns immediately; a failed one stores the error,
and when attempts remain the hint is appended to the instruction before
the next one; after the last attempt the last error is re-raised.  The
log records the (instruction, contexts) pair passed to each LLM call. -/
def genGo {R : Type} (llm : Nat → String → List String → Except GenError String)
    (parse : String → Except GenError R) (ctxs : List String) :
    Nat → Nat → String → List (String × List String) →
    Except GenError R × List (String × List String)
  | 0, _, _, log => (.error (.invalidJson "loop body never entered"), log)
  | remaining + 1, attempt, instr, log =>
    match attemptCall llm parse attempt instr ctxs with
    | .ok res => (.ok res, log ++ [(instr, ctxs)])
    | .error e =>
      match remaining with
      | 0 => (.error e, log ++ [(instr, ctxs)])
      | r + 1 => genGo llm parse ctxs (r + 1) (attempt + 1) (instr ++ hintText) (log ++ [(instr, ctxs)])

/-- Source constant `max_retries = 2` (services.py line 36). -/
def maxRetries : Nat := 2

/-- Steps 1-2 of `generate_code` (services.py lines 26-33): retrieve the
context fragments once, and prepend the database schema block at position
0 when it is non-empty. -/
def contextsOf (retrieve : String → List String) (dbContext : String)
    (instruction : String) : List String :=
  if dbContext = "" then retrieve instruction
  else ("DATABASE SCHEMA CONTEXT:\n" ++ dbContext) :: retrieve instruction

/-- Model of `CodeGenerationService.generate_code` (services.py lines 20-51):
retrieve context once, then run up to 3 generation attempts against it.
Returns the result (or the re-raised last error) together with the list of
LLM calls made. -/
def generateCode {R : Type} (retrieve : String → List String) (dbContext : String)
    (llm : Nat → String → List String → Except GenError String)
    (parse : String → Except GenError R) (instruction : String) :
    Except GenError R × List (String × List String) :=
  genGo llm parse (contextsOf retrieve dbContext instruction) (maxRetries + 1) 0 instruction []

/-- The instruction seen by the LLM on attempt `j` (0-based): the original
instruction with `j` copies of the corrective hint appended. -/
def hintedInstr (instruction : String) : Nat → String
  | 0 => instruction
  | j + 1 => hintedInstr instruction j ++ hintText

/-- Oracle for the C7 scenario: the LLM raises a transport error on the
first attempt and returns parseable output afterwards. -/
def llmC7 : Nat → String → List String → Except GenError String :=
  fun attempt _ _ =>
    if attempt = 0 then .error (.backend "Ollama inference failed: connection refused")
    else .ok "valid"

/-- Oracle parser for the C6/C7 scenarios: only the sentinel raw output
parses. -/
def parseC67 : String → Except GenError Nat :=
  fun raw => if raw = "valid" then .ok 7 else .error (.invalidJson "LLM produced invalid JSON")

/-- Oracle for the C6 scenario: unparsable text on the first two attempts,
parseable text on the third. -/
def llmC6 : Nat → String → List String → Except GenError String :=
  fun attempt _ _ => if attempt < 2 then .ok "garbage" else .ok "valid"

/-- A one-fragment retrieval oracle used by the concrete scenarios. -/
def retrieveOne : String → List String := fun _ => ["ctx fragment"]

/-! Security sanitization (services.py lines 186-201) -/

/-- A file entry as seen by `_validate_security`: its path and content
strings. -/
structure AFile where
  path : List Char
  content : List Char
deriving DecidableEq

/-- Python `os.path.basename` on a POSIX path: everything after the last
slash. -/
def pathBasename (p : List Char) : List Char :=
  (p.reverse.takeWhile (fun c => c ≠ '/')).reverse

/-- Python `path.startswith("/")`. -/
def startsWithSlash : List Char → Bool
  | '/' :: _ => true
  | _ => false

/-- Python `".." in path`: substring search for two consecutive dots. -/
def containsDotDot : List Char → Bool
  | [] => false
  | [_] => false
  | a :: b :: rest => (a = '.' && b = '.') || containsDotDot (b :: rest)

/-- The truncation marker appended by `_validate_security`
(services.py line 201). -/
def truncationMarker : List Char := "\n... [TRUNCATED DUE TO SIZE] ...".toList

/-- The content ceiling, 1 MiB (services.py line 199). -/
def maxContentLength : Nat := 1024 * 1024

/-- The body of the `for file in data.get("files", [])` loop of
`_validate_security` (services.py lines 190-201): a path that starts with
a slash or contains ".." is replaced by its basename, and content longer
than 1 MiB is cut at 1 MiB with the truncation marker appended. -/
def sanitizeFile (f : AFile) : AFile :=
  { path := if startsWithSlash f.path || containsDotDot f.path then pathBasename f.path else f.path,
    content := if maxContentLength < f.content.length
      then f.content.take maxContentLength ++ truncationMarker
      else f.content }

/-- Model of `_validate_security` over the whole files list. -/
def validateSecurity (files : List AFile) : List AFile := files.map sanitizeFile

/-- Spec-side notion (claim C8 wording): the path is absolute. -/
def isAbsolutePath (p : List Char) : Prop := ∃ rest, p = '/' :: rest

/-- Spec-side notion (claim C8 wording): the path contains a
parent-directory traversal segment, i.e. a ".." component delimited by
the start of the path or a slash on the left and the end of the path or a
slash on the right. -/
def hasTraversalSegment (p : List Char) : Prop :=
  ∃ pre post, p = pre ++ '.' :: '.' :: post
    ∧ (pre = [] ∨ ∃ pre2, pre = pre2 ++ ['/'])
    ∧ (post = [] ∨ ∃ post2, post = '/' :: post2)

/-! Schema normalization (services.py lines 100-140) and the strict
result construction (schemas.py lines 35-45) -/

/-- A parsed JSON value, as produced by `json.loads`. -/
inductive JVal where
  | jnull
  | jbool (b : Bool)
  | jnum (n : Int)
  | jstr (s : String)
  | jarr (xs : List JVal)
  | jobj (fields : List (String × JVal))

/-- Python `key in dict`. -/
def hasKey (k : String) : List (String × JVal) → Bool
  | [] => false
  | (k2, _) :: rest => k2 == k || hasKey k rest

/-- Python `dict[key] = v`: update in place when the key exists, append
otherwise. -/
def setKey (k : String) (v : JVal) : List (String × JVal) → List (String × JVal)
  | [] => [(k, v)]
  | (k2, v2) :: rest => if k2 == k then (k2, v) :: rest else (k2, v2) :: setKey k v rest

/-- Python `dict.get(key)`. -/
def getKey? (k : String) : List (String × JVal) → Option JVal
  | [] => none
  | (k2, v2) :: rest => if k2 == k then some v2 else getKey? k rest

mutual

/-- A JSON serializer standing in for `json.dumps(data, indent=2)`
(services.py line 113); the normalization properties proved below do not
depend on the rendering, only on the value being a string. -/
def dumps : JVal → String
  | .jnull => "null"
  | .jbool true => "true"
  | .jbool false => "false"
  | .jnum n => toString n
  | .jstr s => "\"" ++ s ++ "\""
  | .jarr xs => "[" ++ dumpsList xs ++ "]"
  | .jobj fs => "\x7b" ++ dumpsFields fs ++ "\x7d"

def dumpsList : List JVal → String
  | [] => ""
  | [x] => dumps x
  | x :: xs => dumps x ++ ", " ++ dumpsList xs

def dumpsFields : List (String × JVal) → String
  | [] => ""
  | [(k, v)] => "\"" ++ k ++ "\": " ++ dumps v
  | (k, v) :: fs => "\"" ++ k ++ "\": " ++ dumps v ++ ", " ++ dumpsFields fs

end

/-- Python `str.lower()` (ASCII suffices for extensions). -/
def lowerStr (s : String) : String := String.mk (s.toList.map Char.toLower)

/-- Source expression `path.split('.')[-1].lower() if '.' in path else ''`
(services.py line 146). -/
def extOf (path : String) : String :=
  if path.toList.contains '.' then
    lowerStr (String.mk ((path.toList.reverse.takeWhile (fun c => c ≠ '.')).reverse))
  else ""

/-- The fixed extension-to-language table of `_guess_language`
(services.py lines 147-163), defaulting to "text". -/
def langMapping (ext : String) : String :=
  if ext = "py" then "python"
  else if ext = "ts" then "typescript"
  else if ext = "tsx" then "typescript"
  else if ext = "js" then "javascript"
  else if ext = "jsx" then "javascript"
  else if ext = "html" then "html"
  else if ext = "css" then "css"
  else if ext = "json" then "json"
  else if ext = "md" then "markdown"
  else if ext = "sql" then "sql"
  else if ext = "sh" then "shell"
  else if ext = "yml" then "yaml"
  else if ext = "yaml" then "yaml"
  else if ext = "dockerfile" then "dockerfile"
  else "text"

/-- Model of `CodeGenerationService._guess_language` (services.py lines 142-163). -/
def guessLanguage (path : String) : String := langMapping (extOf path)

/-- The replacement dict built when the payload has a "class" key but no
"files" key (services.py lines 105-115). -/
def recoveredData (data : List (String × JVal)) : List (String × JVal) :=
  [("summary", .jstr "Auto-recovered code generation"),
   ("assumptions", .jarr [.jstr "LLM used legacy/incorrect schema; attempt made to recover content"]),
   ("files", .jarr [.jobj [("path", .jstr "generated_code.txt"),
                           ("action", .jstr "create"),
                           ("language", .jstr "text"),
                           ("content", .jstr (dumps (.jobj data)))]])]

/-- Source line `if "action" not in file: file["action"] = "create"`
(services.py lines 128-129). -/
def backfillAction (fields : List (String × JVal)) : List (String × JVal) :=
  if hasKey "action" fields then fields else setKey "action" (.jstr "create") fields

/-- Source line `if "language" not in file: ...` with the guessed language
(services.py lines 131-134); when the looked-up path is not a string,
`_guess_language` raises a type error (`none`). -/
def backfillLanguage (fields : List (String × JVal)) : Option (List (String × JVal)) :=
  if hasKey "language" fields then some fields
  else
    match (getKey? "path" fields).getD (.jstr "") with
    | .jstr p => some (setKey "language" (.jstr (guessLanguage p)) fields)
    | _ => none

/-- Source line `if "content" not in file: file["content"] = ""`
(services.py lines 137-138). -/
def backfillContent (fields : List (String × JVal)) : List (String × JVal) :=
  if hasKey "content" fields then fields else setKey "content" (.jstr "") fields

/-- The per-file normalization of `_normalize_schema`
(services.py lines 123-138): backfill `action`, `language` and `content`
in order; non-dict entries are skipped unchanged.  Note the loop never
backfills `path`. -/
def normalizeFile : JVal → Option JVal
  | .jobj fields =>
    match backfillLanguage (backfillAction fields) with
    | none => none
    | some f2 => some (.jobj (backfillContent f2))
  | v => some v

/-- The legacy-shape recovery of `_normalize_schema`
(services.py lines 105-115). -/
def recoverLegacy (data : List (String × JVal)) : List (String × JVal) :=
  if !(hasKey "files" data) && hasKey "class" data then recoveredData data else data

/-- Source line `if "summary" not in data: ...` (services.py line 118). -/
def backfillSummary (d : List (String × JVal)) : List (String × JVal) :=
  if hasKey "summary" d then d else setKey "summary" (.jstr "Code generated successfully.") d

/-- Source line `if "assumptions" not in data: ...` (services.py line 119). -/
def backfillAssumptions (d : List (String × JVal)) : List (String × JVal) :=
  if hasKey "assumptions" d then d else setKey "assumptions" (.jarr []) d

/-- Source line `if "files" not in data: ...` (services.py line 120). -/
def backfillFiles (d : List (String × JVal)) : List (String × JVal) :=
  if hasKey "files" d then d else setKey "files" (.jarr []) d

/-- The top-level part of `_normalize_schema` (services.py lines
104-120): recover a legacy "class" payload, then backfill the three
mandatory top-level keys. -/
def backfillTop (data : List (String × JVal)) : List (String × JVal) :=
  backfillFiles (backfillAssumptions (backfillSummary (recoverLegacy data)))

/-- Model of `CodeGenerationService._normalize_schema` (services.py lines 100-140):
recover a legacy "class" payload, backfill the three top-level keys, then
normalize every entry of `files`.  Iterating a string or a dict visits
strings, which are skipped as non-dicts; iterating any other non-list
raises (`none`). -/
def normalizeSchema (data : List (String × JVal)) : Option (List (String × JVal)) :=
  match (getKey? "files" (backfillTop data)).getD .jnull with
  | .jarr fs =>
    match fs.mapM normalizeFile with
    | none => none
    | some fs2 => some (setKey "files" (.jarr fs2) (backfillTop data))
  | .jstr _ => some (backfillTop data)
  | .jobj _ => some (backfillTop data)
  | _ => none

/-- Model of `AssistantFile` (schemas.py lines 35-39): all four fields required
strings. -/
structure AssistantFile where
  path : String
  action : String
  language : String
  content : String
deriving DecidableEq

/-- Model of `AssistantResponse` (schemas.py lines 42-45). -/
structure AssistantResponse where
  summary : String
  assumptions : List String
  files : List AssistantFile
deriving DecidableEq

def asString : JVal → Option String
  | .jstr s => some s
  | _ => none

def asStringList : JVal → Option (List String)
  | .jarr xs => xs.mapM asString
  | _ => none

/-- Strict construction of one `AssistantFile`: every field must be
present and a string, else pydantic raises a validation error. -/
def toAssistantFile : JVal → Option AssistantFile
  | .jobj fs =>
    match (getKey? "path" fs).bind asString, (getKey? "action" fs).bind asString,
        (getKey? "language" fs).bind asString, (getKey? "content" fs).bind asString with
    | some p, some a, some l, some c => some ⟨p, a, l, c⟩
    | _, _, _, _ => none
  | _ => none

/-- Strict construction `AssistantResponse(**data)` (services.py line 71
against schemas.py lines 35-45): missing or ill-typed fields raise. -/
def toAssistantResponse (data : List (String × JVal)) : Option AssistantResponse :=
  match (getKey? "summary" data).bind asString,
      (getKey? "assumptions" data).bind asStringList, getKey? "files" data with
  | some s, some a, some (.jarr xs) =>
    match xs.mapM toAssistantFile with
    | some fs => some ⟨s, a, fs⟩
    | none => none
  | _, _, _ => none

/-- The C9 counterexample payload: a mapping whose `files` list holds one
empty mapping. -/
def dataC9 : List (String × JVal) := [("files", JVal.jarr [JVal.jobj []])]

/-- The path of the C8 example file entry. -/
def pathC8 : List Char := "../../etc/passwd".toList

/-- The C8 example file entry: a traversal path together with a content
one character over the 1 MiB ceiling. -/
def fileC8 : AFile := ⟨pathC8, List.replicate (maxContentLength + 1) 'a'⟩

/-- The value `_normalize_schema` produces for `dataC9`. -/
def outC9 : List (String × JVal) :=
  [("files", JVal.jarr [JVal.jobj
      [("action", JVal.jstr "create"), ("language", JVal.jstr "text"),
       ("content", JVal.jstr "")]]),
   ("summary", JVal.jstr "Code generated successfully."),
   ("assumptions", JVal.jarr [])]

end Services

/-! Theorems from here on. -/

namespace Ingest

/-! Basic length facts about the chunker's building blocks -/

theorem pyStrip_length_le (s : List Char) : (pyStrip s).length ≤ s.length := by
  unfold pyStrip
  calc ((s.dropWhile isPySpace).reverse.dropWhile isPySpace).reverse.length
      = ((s.dropWhile isPySpace).reverse.dropWhile isPySpace).length := List.length_reverse _
    _ ≤ (s.dropWhile isPySpace).reverse.length := (List.dropWhile_sublist _).length_le
    _ = (s.dropWhile isPySpace).length := List.length_reverse _
    _ ≤ s.length := (List.dropWhile_sublist _).length_le

theorem takeLast_length_le (n : Nat) (l : List Char) : (takeLast n l).length ≤ n := by
  unfold takeLast
  rw [List.length_drop]
  omega

theorem joinNN_concat_length (cur : List (List Char)) (p : List Char) :
    (joinNN (cur ++ [p])).length
      = (joinNN cur).length + p.length + (if cur.isEmpty then 0 else 2) := by
  induction cur with
  | nil => simp [joinNN]
  | cons x xs ih =>
    cases xs with
    | nil => simp [joinNN]; omega
    | cons y ys =>
      have h : joinNN (x :: (y :: ys) ++ [p]) = x ++ '\n' :: '\n' :: joinNN ((y :: ys) ++ [p]) := rfl
      have h' : joinNN (x :: y :: ys) = x ++ '\n' :: '\n' :: joinNN (y :: ys) := rfl
      simp only [List.cons_append, h, h', List.length_append, List.length_cons] at *
      simp only [List.isEmpty_cons] at *
      omega

theorem flushChunk_bound (maxC : Nat) (cur : List (List Char))
    (h : (joinNN cur).length ≤ maxC) :
    ∀ c ∈ flushChunk cur, c.length ≤ maxC := by
  intro c hc
  unfold flushChunk at hc
  by_cases he : (pyStrip (joinNN cur)).isEmpty
  · simp [he] at hc
  · simp [he] at hc
    subst hc
    exact le_trans (pyStrip_length_le _) h

theorem hardSplitGo_bound (p : List Char) (maxC ovl : Nat) :
    ∀ (fuel start : Nat) (acc out : List (List Char)),
      (∀ c ∈ acc, c.length ≤ maxC) →
      hardSplitGo p maxC ovl fuel start acc = some out →
      ∀ c ∈ out, c.length ≤ maxC := by
  intro fuel
  induction fuel with
  | zero => intro start acc out _ h; exact absurd h (by simp [hardSplitGo])
  | succ f ih =>
    intro start acc out hacc h
    rw [hardSplitGo] at h
    by_cases hs : start < p.length
    · rw [if_pos hs] at h
      refine ih _ _ _ ?_ h
      intro c hc
      rcases List.mem_append.1 hc with hc | hc
      · exact hacc c hc
      · have hc' : c = pyStrip ((p.drop start).take (min p.length (start + maxC) - start)) := by
          simpa using hc
        subst hc'
        calc (pyStrip ((p.drop start).take (min p.length (start + maxC) - start))).length
            ≤ ((p.drop start).take (min p.length (start + maxC) - start)).length :=
              pyStrip_length_le _
          _ ≤ min p.length (start + maxC) - start := by
              rw [List.length_take]; omega
          _ ≤ maxC := by omega
    · rw [if_neg hs] at h
      have : acc = out := by simpa using h
      subst this
      exact hacc

theorem packGo_bound (maxC ovl fuel : Nat) :
    ∀ (paras chunks cur : List (List Char)) (curLen : Nat) (out : List (List Char)),
      (∀ c ∈ chunks, c.length ≤ maxC) →
      (joinNN cur).length ≤ curLen →
      (joinNN cur).length ≤ maxC →
      packGo maxC ovl fuel paras chunks cur curLen = some out →
      ∀ c ∈ out, c.length ≤ maxC := by
  intro paras
  induction paras with
  | nil =>
    intro chunks cur curLen out hchunks _ hcur2 h
    have : chunks ++ flushChunk cur = out := by simpa [packGo] using h
    subst this
    intro c hc
    rcases List.mem_append.1 hc with hc | hc
    · exact hchunks c hc
    · exact flushChunk_bound maxC cur hcur2 c hc
  | cons p ps ih =>
    intro chunks cur curLen out hchunks hcur1 hcur2 h
    rw [packGo] at h
    by_cases hbig : maxC < p.length
    · rw [if_pos hbig] at h
      rcases hhs : hardSplitGo p maxC ovl fuel 0 [] with _ | slices
      · rw [hhs] at h; exact absurd h (by simp)
      · rw [hhs] at h
        refine ih _ _ _ _ ?_ (by simp [joinNN]) (by simp [joinNN]) h
        intro c hc
        rcases List.mem_append.1 hc with hc' | hc'
        · rcases List.mem_append.1 hc' with hc'' | hc''
          · exact hchunks c hc''
          · exact flushChunk_bound maxC cur hcur2 c hc''
        · exact hardSplitGo_bound p maxC ovl fuel 0 [] slices (by simp) hhs c hc'
    · rw [if_neg hbig] at h
      by_cases hover : maxC < curLen + (p.length + (if cur.isEmpty then 0 else 2))
      · rw [if_pos hover] at h
        refine ih _ _ _ _ ?_ (by simp [joinNN]) (by simp [joinNN]; omega) h
        intro c hc
        rcases List.mem_append.1 hc with hc | hc
        · exact hchunks c hc
        · exact flushChunk_bound maxC cur hcur2 c hc
      · rw [if_neg hover] at h
        refine ih _ _ _ _ hchunks ?_ ?_ h
        · rw [joinNN_concat_length]; omega
        · rw [joinNN_concat_length]; omega

theorem overlapPass_bound (maxC ovl : Nat) (chunks : List (List Char))
    (h : ∀ c ∈ chunks, c.length ≤ maxC) :
    ∀ c ∈ overlapPass ovl chunks, c.length ≤ maxC + 2 + ovl := by
  intro c hc
  unfold overlapPass at hc
  by_cases hcond : 0 < ovl ∧ 1 < chunks.length
  · rw [if_pos hcond] at hc
    cases chunks with
    | nil => simp at hc
    | cons c0 rest =>
      rcases List.mem_cons.1 hc with hc | hc
      · have hc0 := h c0 (List.mem_cons_self _ _)
        subst hc
        omega
      · rcases List.mem_map.1 hc with ⟨pr, hpr, hpr2⟩
        subst hpr2
        have hmem := List.of_mem_zip hpr
        have h1 : pr.1.length ≤ maxC := h pr.1 hmem.1
        have h2 : pr.2.length ≤ maxC := h pr.2 (List.mem_cons_of_mem _ hmem.2)
        calc (pyStrip (takeLast ovl pr.1 ++ '\n' :: '\n' :: pr.2)).length
            ≤ (takeLast ovl pr.1 ++ '\n' :: '\n' :: pr.2).length := pyStrip_length_le _
          _ = (takeLast ovl pr.1).length + 2 + pr.2.length := by
              simp [List.length_append]; omega
          _ ≤ ovl + 2 + maxC := by
              have := takeLast_length_le ovl pr.1
              omega
          _ = maxC + 2 + ovl := by omega
  · rw [if_neg hcond] at hc
    have := h c hc
    omega

theorem hardSplitGo_diverge_C1 :
    ∀ (fuel start : Nat) (acc : List (List Char)), start < 120 →
      hardSplitGo paraC1 50 10 fuel start acc = none := by
  have hp : paraC1.length = 120 := by simp [paraC1]
  intro fuel
  induction fuel with
  | zero => intro start acc _; rfl
  | succ f ih =>
    intro start acc hs
    rw [hardSplitGo, if_pos (by omega)]
    exact ih _ _ (by omega)

/-- Claim C1 (code bug, non-termination).  The claim says `chunk_text` terminates for every
`0 ≤ overlapChars < maxChars`, and on a single 120-character paragraph with
`maxChars = 50, overlapChars = 10` produces exactly the 3 slices
`[0,50), [40,90), [80,120)`.  The source loop
(`start = max(0, end - overlap_chars)` in ingest.py line 122) never lets
`start` reach `len(p)` once `end = len(p)`: from `start = 110` every
iteration recomputes `start = 110`.  Hence the call runs forever: for every
fuel value the fuel-indexed embedding returns `none`. -/
theorem chunkText_diverges_on_oversized_paragraph (fuel : Nat) :
    chunkText fuel paraC1 50 10 = none := by
  have h1 : paraC1.isEmpty = false := by decide
  have h2 : normalizeText paraC1 = paraC1 := by decide
  have h3 : chunkParas paraC1 = [paraC1] := by decide
  have h4 : paraC1.length = 120 := by decide
  have h5 : hardSplitGo paraC1 50 10 fuel 0 [] = none :=
    hardSplitGo_diverge_C1 fuel 0 [] (by omega)
  rw [chunkText, h2, h3]
  simp only [h1, Bool.false_eq_true, if_false]
  rw [packGo, if_pos (by omega), h5]

/-- Claim C2, counterexample.  The claim says every string returned by
`chunk_text` has length at most `max_chars`, including the chunks produced
by the inter-chunk overlap pass.  On two 50-character paragraphs with
`max_chars = 50, overlap_chars = 10` the second returned chunk is
`last 10 chars of chunk 1 + "\n\n" + chunk 2`, of length 62 > 50. -/
theorem chunkText_chunk_exceeds_max_chars :
    chunkText 1 textC2 50 10 = some chunksC2 ∧ ¬ (∀ c ∈ chunksC2, c.length ≤ 50) := by
  constructor
  · decide
  · decide

/-- Claim C2, amended.  Every chunk produced before the overlap pass has
length at most `max_chars`; the overlap pass adds at most
`overlap_chars + 2` characters (the previous chunk's tail plus the blank
line), so every returned chunk has length at most
`max_chars + 2 + overlap_chars`, and the first returned chunk — which the
overlap pass leaves unmodified — has length at most `max_chars`. -/
theorem chunkText_length_bound (fuel : Nat) (text : List Char) (maxC ovl : Nat)
    (out : List (List Char)) (h : chunkText fuel text maxC ovl = some out) :
    (∀ c ∈ out, c.length ≤ maxC + 2 + ovl)
      ∧ (∀ c0 rest, out = c0 :: rest → c0.length ≤ maxC) := by
  rw [chunkText] at h
  by_cases h1 : text.isEmpty
  · simp only [h1, if_true] at h
    have : out = [] := by simpa using h.symm
    subst this
    exact ⟨by simp, by simp⟩
  · simp only [h1, Bool.false_eq_true, if_false] at h
    by_cases h2 : (normalizeText text).isEmpty
    · simp only [h2, if_true] at h
      have : out = [] := by simpa using h.symm
      subst this
      exact ⟨by simp, by simp⟩
    · simp only [h2, Bool.false_eq_true, if_false] at h
      rcases hpack : packGo maxC ovl fuel (chunkParas (normalizeText text)) [] [] 0 with _ | chunks
      · rw [hpack] at h; exact absurd h (by simp)
      · rw [hpack] at h
        have hout : out = overlapPass ovl chunks := by simpa using h.symm
        subst hout
        have hb : ∀ c ∈ chunks, c.length ≤ maxC :=
          packGo_bound maxC ovl fuel _ [] [] 0 chunks (by simp) (by simp [joinNN]) (by simp [joinNN]) hpack
        refine ⟨overlapPass_bound maxC ovl chunks hb, ?_⟩
        intro c0 rest hout
        have hc0 : c0 ∈ chunks := by
          unfold overlapPass at hout
          by_cases hcond : 0 < ovl ∧ 1 < chunks.length
          · rw [if_pos hcond] at hout
            cases chunks with
            | nil => simp at hout
            | cons d ds =>
              have : c0 = d := by simpa using congrArg (fun l => l.headD []) hout.symm
              subst this
              exact List.mem_cons_self _ _
          · rw [if_neg hcond] at hout
            rw [hout]
            exact List.mem_cons_self _ _
        exact hb c0 hc0

/-- Witness for `chunkText_length_bound` at `textC2`,
`max_chars = 50, overlap_chars = 10` (bound `50 + 2 + 10 = 62`). -/
theorem chunkText_length_bound_witness :
    chunkText 1 textC2 50 10 = some chunksC2
      ∧ (∀ c ∈ chunksC2, c.length ≤ 62)
      ∧ (List.replicate 50 'a').length ≤ 50 := by
  have happ := chunkText_length_bound 1 textC2 50 10 chunksC2 (by decide)
  refine ⟨by decide, fun c hc => ?_, happ.2 (List.replicate 50 'a') _ rfl⟩
  simpa using happ.1 c hc

end Ingest

namespace VectorStore

theorem range_filter_map_getD {α : Type} (l : List α) (p' : Nat → Bool) (p : α → Bool) (d : α)
    (hpp : ∀ i, i < l.length → p' i = p (l.getD i d)) :
    ((List.range l.length).filter p').map (fun i => l.getD i d) = l.filter p := by
  induction l generalizing p' with
  | nil => simp
  | cons x xs ih =>
    have h0 : p' 0 = p x := by simpa using hpp 0 (by simp)
    have hsucc : ∀ i, i < xs.length → p' (i + 1) = p (xs.getD i d) := by
      intro i hi
      simpa using hpp (i + 1) (by simpa using hi)
    have hmap : ((List.range xs.length).filter (fun i => p' (i + 1))).map
        (fun i => xs.getD i d) = xs.filter p := ih _ hsucc
    rw [List.length_cons, List.range_succ_eq_map, List.filter_cons, List.filter_map]
    by_cases hx : p x
    · rw [if_pos (by simp [h0, hx]), List.map_cons, List.map_map]
      have hcomp : ((fun i => (x :: xs).getD i d) ∘ Nat.succ) = fun i => xs.getD i d := by
        funext i
        simp
      have hpred : (p' ∘ Nat.succ) = fun i => p' (i + 1) := by
        funext i
        simp [Function.comp, Nat.succ_eq_add_one]
      rw [hcomp, hpred, hmap, List.filter_cons, if_pos (by simp [hx])]
      simp
    · rw [if_neg (by simp [h0, hx]), List.map_map]
      have hcomp : ((fun i => (x :: xs).getD i d) ∘ Nat.succ) = fun i => xs.getD i d := by
        funext i
        simp
      have hpred : (p' ∘ Nat.succ) = fun i => p' (i + 1) := by
        funext i
        simp [Function.comp, Nat.succ_eq_add_one]
      rw [hcomp, hpred, hmap, List.filter_cons, if_neg (by simp [hx])]

theorem records_length (st : InMemoryVectorStore) (hwf : Wf st) :
    (records st).length = st.ids.length := by
  obtain ⟨h1, h2, h3⟩ := hwf
  simp [records, List.length_zip]
  omega

theorem records_getD (st : InMemoryVectorStore) (hwf : Wf st) (i : Nat)
    (hi : i < st.ids.length) :
    (records st).getD i recDefault
      = (st.ids.getD i "", st.vectors.getD i [], st.texts.getD i "", st.metadatas.getD i []) := by
  obtain ⟨h1, h2, h3⟩ := hwf
  rw [List.getD_eq_getElem _ _ (by rw [records_length st ⟨h1, h2, h3⟩]; omega)]
  rw [List.getD_eq_getElem _ _ hi, List.getD_eq_getElem _ _ (by omega),
    List.getD_eq_getElem _ _ (by omega), List.getD_eq_getElem _ _ (by omega)]
  simp [records]



theorem keepIdx_eq (st : InMemoryVectorStore) (docId : String) (hwf : Wf st) :
    keepIdx st docId = (List.range (records st).length).filter
      (fun i => !(isDocMatch docId (st.metadatas.getD i []))) := by
  rw [keepIdx, records_length st hwf]

theorem deleteDoc_records (st : InMemoryVectorStore) (docId : String)
    (hd : docId ≠ "") (hwf : Wf st) :
    records (deleteDoc st docId).1
      = (records st).filter (fun r => !(isDocMatch docId r.2.2.2)) := by
  have h1 : records (deleteDoc st docId).1
      = (keepIdx st docId).map (fun i =>
          (st.ids.getD i "", st.vectors.getD i [], st.texts.getD i "", st.metadatas.getD i [])) := by
    rw [deleteDoc, if_neg hd]
    simp [records, List.zip_map']
  rw [h1]
  have h2 : (keepIdx st docId).map (fun i =>
        (st.ids.getD i "", st.vectors.getD i [], st.texts.getD i "", st.metadatas.getD i []))
      = (keepIdx st docId).map (fun i => (records st).getD i recDefault) := by
    refine List.map_congr_left ?_
    intro i hi
    have hir : i < st.ids.length := by
      rw [keepIdx] at hi
      exact List.mem_range.1 (List.mem_of_mem_filter hi)
    exact (records_getD st hwf i hir).symm
  rw [h2, keepIdx_eq st docId hwf]
  refine range_filter_map_getD (records st) _ _ recDefault ?_
  intro i hi
  have hir : i < st.ids.length := by rw [← records_length st hwf]; omega
  rw [records_getD st hwf i hir]

theorem deleteDoc_count (st : InMemoryVectorStore) (docId : String)
    (hd : docId ≠ "") (hwf : Wf st) :
    (deleteDoc st docId).2
      = ((records st).filter (fun r => isDocMatch docId r.2.2.2)).length := by
  have h1 : (deleteDoc st docId).2 = (removedIdx st docId).length := by
    rw [deleteDoc, if_neg hd]
  rw [h1]
  have h2 : removedIdx st docId = (List.range (records st).length).filter
      (fun i => isDocMatch docId (st.metadatas.getD i [])) := by
    rw [removedIdx, records_length st hwf]
  have h3 := range_filter_map_getD (records st)
    (fun i => isDocMatch docId (st.metadatas.getD i []))
    (fun r => isDocMatch docId r.2.2.2) recDefault ?_
  · have := congrArg List.length h3
    rw [List.length_map] at this
    rw [h2, this]
  · intro i hi
    have hir : i < st.ids.length := by rw [← records_length st hwf]; omega
    rw [records_getD st hwf i hir]

theorem deleteDoc_ids (st : InMemoryVectorStore) (docId : String)
    (hd : docId ≠ "") (hwf : Wf st) :
    (deleteDoc st docId).1.ids
      = ((st.ids.zip st.metadatas).filter (fun x => !(isDocMatch docId x.2))).map Prod.fst := by
  obtain ⟨h1, h2, h3⟩ := hwf
  have hzl : (st.ids.zip st.metadatas).length = st.ids.length := by
    rw [List.length_zip]
    omega
  have hids : (deleteDoc st docId).1.ids = (keepIdx st docId).map (fun i => st.ids.getD i "") := by
    rw [deleteDoc, if_neg hd]
  rw [hids]
  have hcongr : (keepIdx st docId).map (fun i => st.ids.getD i "")
      = (keepIdx st docId).map (fun i =>
          ((st.ids.zip st.metadatas).getD i ("", [])).1) := by
    refine List.map_congr_left ?_
    intro i hi
    have hir : i < st.ids.length := by
      rw [keepIdx] at hi
      exact List.mem_range.1 (List.mem_of_mem_filter hi)
    rw [List.getD_eq_getElem _ _ (by omega : i < (st.ids.zip st.metadatas).length),
      List.getD_eq_getElem _ _ hir]
    simp
  rw [hcongr]
  have hkeep : keepIdx st docId = (List.range (st.ids.zip st.metadatas).length).filter
      (fun i => !(isDocMatch docId (st.metadatas.getD i []))) := by
    rw [keepIdx, hzl]
  rw [hkeep]
  have hfil := range_filter_map_getD (st.ids.zip st.metadatas)
    (fun i => !(isDocMatch docId (st.metadatas.getD i [])))
    (fun x => !(isDocMatch docId x.2)) ("", ([] : Metadata)) ?_
  · rw [← hfil, List.map_map]
    rfl
  · intro i hi
    have hir : i < st.ids.length := by omega
    have hmd : i < st.metadatas.length := by omega
    simp only [List.getD_eq_getElem _ _ hi, List.getD_eq_getElem _ _ hmd, List.getElem_zip]



theorem search_hits (st : InMemoryVectorStore) (q : List Int) (topK : Nat) :
    ∀ h ∈ search st q topK, ∃ i, i < st.vectors.length
      ∧ h.score = (simsOf st q).getD i 0 ∧ h.id = st.ids.getD i "" := by
  intro h hh
  rw [search] at hh
  by_cases hz : st.vectors.length = 0
  · rw [if_pos hz] at hh
    simp at hh
  · rw [if_neg hz] at hh
    rcases List.mem_map.1 hh with ⟨i, hi, rfl⟩
    have hr : i ∈ List.range (simsOf st q).length :=
      (List.perm_insertionSort _ _).subset ((List.take_sublist _ _).subset hi)
    have hilt : i < st.vectors.length := by
      have := List.mem_range.1 hr
      simpa [simsOf] using this
    exact ⟨i, hilt, rfl, rfl⟩

/-- Claim C4.  For the in-memory backend and every non-empty `doc_id`,
`delete_doc` removes exactly the records whose metadata `doc_id` equals
the argument (leaving the others in place, in order), returns the count
of removed records, and — under the app invariant that stored ids are
unique — a subsequent `search` never returns the id of a removed
record. -/
theorem deleteDoc_spec (st : InMemoryVectorStore) (docId : String)
    (hd : docId ≠ "") (hwf : Wf st) (hnd : st.ids.Nodup) :
    records (deleteDoc st docId).1
        = (records st).filter (fun r => !(isDocMatch docId r.2.2.2))
      ∧ (deleteDoc st docId).2
        = ((records st).filter (fun r => isDocMatch docId r.2.2.2)).length
      ∧ ∀ (q : List Int) (topK : Nat) (h : SearchHit),
          h ∈ search (deleteDoc st docId).1 q topK →
          h.id ∉ ((st.ids.zip st.metadatas).filter (fun x => isDocMatch docId x.2)).map
            Prod.fst := by
  refine ⟨deleteDoc_records st docId hd hwf, deleteDoc_count st docId hd hwf, ?_⟩
  intro q topK h hh hremoved
  rcases search_hits _ q topK h hh with ⟨i, hi, _, hid⟩
  have hlen2 : (deleteDoc st docId).1.vectors.length = (deleteDoc st docId).1.ids.length := by
    rw [deleteDoc, if_neg hd]
    simp
  have hi' : i < (deleteDoc st docId).1.ids.length := by omega
  have hmem : h.id ∈ (deleteDoc st docId).1.ids := by
    rw [hid, List.getD_eq_getElem _ _ hi']
    exact List.getElem_mem _
  rw [deleteDoc_ids st docId hd hwf] at hmem
  rcases List.mem_map.1 hmem with ⟨x, hx, hxe⟩
  rcases List.mem_map.1 hremoved with ⟨y, hy, hye⟩
  have hxz : x ∈ st.ids.zip st.metadatas := List.mem_of_mem_filter hx
  have hyz : y ∈ st.ids.zip st.metadatas := List.mem_of_mem_filter hy
  have hnodup : ((st.ids.zip st.metadatas).map Prod.fst).Nodup := by
    rw [List.map_fst_zip _ _ (le_of_eq hwf.2.2)]
    exact hnd
  have hxy : x = y := List.inj_on_of_nodup_map hnodup hxz hyz (by rw [hxe, hye])
  have hpx := (List.mem_filter.1 hx).2
  have hpy := (List.mem_filter.1 hy).2
  rw [hxy] at hpx
  simp [hpy] at hpx

theorem simsOf_getD (st : InMemoryVectorStore) (q : List Int) (i : Nat)
    (h : i < st.vectors.length) :
    (simsOf st q).getD i 0 = dot (st.vectors.getD i []) q := by
  unfold simsOf
  rw [List.getD_eq_getElem _ _ (by simpa using h), List.getD_eq_getElem _ _ h,
    List.getElem_map]

/-- Claim C3.  For the in-memory backend, `search(queryVector, topK)` returns
results ordered by descending score, each score being the dot product of a
stored vector with the query; it returns at most `topK` results, exactly
`N` results when the index holds `N < topK` records, and the empty
sequence on an empty index. -/
theorem search_spec (st : InMemoryVectorStore) (q : List Int) (topK : Nat) :
    List.Sorted (fun h1 h2 => h2.score ≤ h1.score) (search st q topK)
      ∧ (search st q topK).length ≤ topK
      ∧ (st.vectors.length < topK → (search st q topK).length = st.vectors.length)
      ∧ (st.vectors = [] → search st q topK = [])
      ∧ (∀ h ∈ search st q topK, ∃ i, i < st.vectors.length
          ∧ h.score = dot (st.vectors.getD i []) q ∧ h.id = st.ids.getD i "") := by
  by_cases hz : st.vectors.length = 0
  · have hs : search st q topK = [] := by rw [search, if_pos hz]
    rw [hs]
    exact ⟨by simp, by simp, fun _ => by simp [hz], fun _ => rfl, by simp⟩
  · have hs : search st q topK
        = ((List.insertionSort (rankRel (simsOf st q)) (List.range (simsOf st q).length)).take
            topK).map
          (fun i =>
            { id := st.ids.getD i "", score := (simsOf st q).getD i 0,
              text := st.texts.getD i "", metadata := st.metadatas.getD i [] }) := by
      rw [search, if_neg hz]
    have hlen_sims : (simsOf st q).length = st.vectors.length := List.length_map _ _
    have hsorted := List.sorted_insertionSort (rankRel (simsOf st q))
      (List.range (simsOf st q).length)
    have hperm := List.perm_insertionSort (rankRel (simsOf st q))
      (List.range (simsOf st q).length)
    have hmem : ∀ i ∈ ((List.insertionSort (rankRel (simsOf st q))
        (List.range (simsOf st q).length)).take topK), i < st.vectors.length := by
      intro i hi
      have : i ∈ List.range (simsOf st q).length :=
        hperm.subset ((List.take_sublist _ _).subset hi)
      rw [← hlen_sims]
      exact List.mem_range.1 this
    refine ⟨?_, ?_, ?_, ?_, ?_⟩
    · rw [hs]
      refine List.Pairwise.map _ ?_ (hsorted.sublist (List.take_sublist _ _))
      intro a b hab
      rcases hab with hab | hab
      · simp only
        omega
      · simp only
        omega
    · rw [hs, List.length_map, List.length_take]
      have := hperm.length_eq
      simp only [List.length_range] at this
      omega
    · intro htop
      rw [hs, List.length_map, List.length_take]
      have := hperm.length_eq
      simp only [List.length_range] at this
      omega
    · intro hv
      exact absurd (by rw [hv]; rfl) hz
    · rw [hs]
      intro h hh
      rcases List.mem_map.1 hh with ⟨i, hi, rfl⟩
      exact ⟨i, hmem i hi, simsOf_getD st q i (hmem i hi), rfl⟩

/-- Witness for `search_spec`: a two-record store searched with
`topK = 5 > 2` returns exactly 2 hits; an empty store returns `[]`. -/
theorem search_spec_witness :
    (search ⟨["a", "b"], [[1], [2]], ["ta", "tb"], [[], []]⟩ [3] 5).length = 2
      ∧ List.Sorted (fun h1 h2 => h2.score ≤ h1.score)
          (search ⟨["a", "b"], [[1], [2]], ["ta", "tb"], [[], []]⟩ [3] 5)
      ∧ search ⟨[], [], [], []⟩ [3] 5 = [] := by
  refine ⟨?_, ?_, ?_⟩
  · exact (search_spec ⟨["a", "b"], [[1], [2]], ["ta", "tb"], [[], []]⟩ [3] 5).2.2.1
      (by decide)
  · exact (search_spec ⟨["a", "b"], [[1], [2]], ["ta", "tb"], [[], []]⟩ [3] 5).1
  · exact (search_spec ⟨[], [], [], []⟩ [3] 5).2.2.2.1 rfl

/-- Claim C10.  The source `delete_doc` with a falsy (empty) `doc_id` returns 0 and
leaves the whole store — all four parallel lists — unchanged, whatever the
stored metadata (including records whose `doc_id` is the empty string):
the guard `if not doc_id: return 0` fires before any record is examined. -/
theorem deleteDoc_empty_docId (st : InMemoryVectorStore) :
    deleteDoc st "" = (st, 0) := by
  rw [deleteDoc, if_pos rfl]

theorem deleteDoc_spec_witness :
    records (deleteDoc stC4 "d1").1
        = (records stC4).filter (fun r => !(isDocMatch "d1" r.2.2.2))
      ∧ (deleteDoc stC4 "d1").2 = 1 := by
  have h := deleteDoc_spec stC4 "d1" (by decide) (by decide) (by decide)
  exact ⟨h.1, by rw [h.2.1]; decide⟩

theorem applyOp_memory (vs : VectorStoreState) (h : vs.useChroma = false) (op : StoreOp) :
    (applyOp vs op).1.useChroma = false
      ∧ (applyOp vs op).1.chromaOps = vs.chromaOps
      ∧ (applyOp vs op).2 = Backend.memory := by
  cases op <;> simp [applyOp, h]

theorem runOps_memory (ops : List StoreOp) :
    ∀ (vs : VectorStoreState), vs.useChroma = false →
      (runOps vs ops).1.useChroma = false
        ∧ (runOps vs ops).1.chromaOps = vs.chromaOps
        ∧ ∀ b ∈ (runOps vs ops).2, b = Backend.memory := by
  induction ops with
  | nil => intro vs h; exact ⟨h, rfl, by simp [runOps]⟩
  | cons op ops ih =>
    intro vs h
    obtain ⟨h1, h2, h3⟩ := applyOp_memory vs h op
    obtain ⟨ih1, ih2, ih3⟩ := ih (applyOp vs op).1 h1
    refine ⟨ih1, by rw [runOps]; dsimp only; rw [ih2, h2], ?_⟩
    intro b hb
    rw [runOps] at hb
    rcases List.mem_cons.1 hb with hb | hb
    · rw [hb, h3]
    · exact ih3 b hb

/-- Claim C5.  If construction of the persistent (Chroma) backend raises, the
instance permanently falls back to the in-memory backend: `use_chroma` is
`False` from construction on, no later `add_many`, `search` or
`delete_doc` call on that instance is ever dispatched to the persistent
backend (every call runs the in-memory branch), and the flag is still
`False` after any sequence of calls. -/
theorem chroma_fallback_permanent (ops : List StoreOp) :
    (initStore true true).useChroma = false
      ∧ (runOps (initStore true true) ops).1.useChroma = false
      ∧ (runOps (initStore true true) ops).1.chromaOps = 0
      ∧ ∀ b ∈ (runOps (initStore true true) ops).2, b = Backend.memory := by
  have h0 : (initStore true true).useChroma = false := rfl
  obtain ⟨h1, h2, h3⟩ := runOps_memory ops (initStore true true) h0
  exact ⟨h0, h1, h2, h3⟩

end VectorStore

namespace Services


theorem hintedInstr_length (ins : String) (j : Nat) :
    (hintedInstr ins j).length = ins.length + j * hintText.length := by
  induction j with
  | zero => simp [hintedInstr]
  | succ j ih => simp [hintedInstr, ih]; ring

theorem hintedInstr_ne (ins : String) (j : Nat) (hj : 0 < j) :
    hintedInstr ins j ≠ hintedInstr ins 0 := by
  intro h
  have := congrArg String.length h
  rw [hintedInstr_length, hintedInstr_length] at this
  have hlen : hintText.length = 34 := by decide
  rw [hlen] at this
  omega

theorem genGo3_char {R : Type} (llm : Nat → String → List String → Except GenError String)
    (parse : String → Except GenError R) (ctxs : List String) (ins : String) :
    (∃ r, attemptCall llm parse 0 ins ctxs = .ok r
        ∧ genGo llm parse ctxs 3 0 ins [] = (.ok r, [(ins, ctxs)]))
    ∨ (∃ e0 r, attemptCall llm parse 0 ins ctxs = .error e0
        ∧ attemptCall llm parse 1 (ins ++ hintText) ctxs = .ok r
        ∧ genGo llm parse ctxs 3 0 ins []
            = (.ok r, [(ins, ctxs), (ins ++ hintText, ctxs)]))
    ∨ (∃ e0 e1 r, attemptCall llm parse 0 ins ctxs = .error e0
        ∧ attemptCall llm parse 1 (ins ++ hintText) ctxs = .error e1
        ∧ attemptCall llm parse 2 (ins ++ hintText ++ hintText) ctxs = .ok r
        ∧ genGo llm parse ctxs 3 0 ins []
            = (.ok r, [(ins, ctxs), (ins ++ hintText, ctxs), (ins ++ hintText ++ hintText, ctxs)]))
    ∨ (∃ e0 e1 e2, attemptCall llm parse 0 ins ctxs = .error e0
        ∧ attemptCall llm parse 1 (ins ++ hintText) ctxs = .error e1
        ∧ attemptCall llm parse 2 (ins ++ hintText ++ hintText) ctxs = .error e2
        ∧ genGo llm parse ctxs 3 0 ins []
            = (.error e2, [(ins, ctxs), (ins ++ hintText, ctxs), (ins ++ hintText ++ hintText, ctxs)])) := by
  rcases h0 : attemptCall llm parse 0 ins ctxs with e0 | r0
  · rcases h1 : attemptCall llm parse 1 (ins ++ hintText) ctxs with e1 | r1
    · rcases h2 : attemptCall llm parse 2 (ins ++ hintText ++ hintText) ctxs with e2 | r2
      · refine Or.inr (Or.inr (Or.inr ⟨e0, e1, e2, rfl, rfl, rfl, ?_⟩))
        simp [genGo, h0, h1, h2]
      · refine Or.inr (Or.inr (Or.inl ⟨e0, e1, r2, rfl, rfl, rfl, ?_⟩))
        simp [genGo, h0, h1, h2]
    · refine Or.inr (Or.inl ⟨e0, r1, rfl, rfl, ?_⟩)
      simp [genGo, h0, h1]
  · refine Or.inl ⟨r0, rfl, ?_⟩
    simp [genGo, h0]




/-- Claim C6.  The orchestrator makes at most 3 generation attempts, all
against the context retrieved once before the loop; the instruction seen
on attempt `j` carries `j` copies of the corrective hint, so attempts 2
and 3 see an instruction different from attempt 1; when the first two
attempts fail to parse and the third parses, the third result is
returned; when all three fail, the last error is re-raised. -/
theorem generateCode_retry_spec {R : Type} (retrieve : String → List String) (db : String)
    (llm : Nat → String → List String → Except GenError String)
    (parse : String → Except GenError R) (ins : String) :
    ((generateCode retrieve db llm parse ins).2.length ≤ 3)
      ∧ (∀ e ∈ (generateCode retrieve db llm parse ins).2, e.2 = contextsOf retrieve db ins)
      ∧ (∀ j, j < (generateCode retrieve db llm parse ins).2.length →
          ((generateCode retrieve db llm parse ins).2.getD j ("", [])).1 = hintedInstr ins j)
      ∧ (∀ (e0 e1 : GenError) (r : R),
          attemptCall llm parse 0 (hintedInstr ins 0) (contextsOf retrieve db ins) = .error e0 →
          attemptCall llm parse 1 (hintedInstr ins 1) (contextsOf retrieve db ins) = .error e1 →
          attemptCall llm parse 2 (hintedInstr ins 2) (contextsOf retrieve db ins) = .ok r →
          (generateCode retrieve db llm parse ins).1 = .ok r
            ∧ (generateCode retrieve db llm parse ins).2.length = 3
            ∧ hintedInstr ins 1 ≠ hintedInstr ins 0
            ∧ hintedInstr ins 2 ≠ hintedInstr ins 0)
      ∧ (∀ (e0 e1 e2 : GenError),
          attemptCall llm parse 0 (hintedInstr ins 0) (contextsOf retrieve db ins) = .error e0 →
          attemptCall llm parse 1 (hintedInstr ins 1) (contextsOf retrieve db ins) = .error e1 →
          attemptCall llm parse 2 (hintedInstr ins 2) (contextsOf retrieve db ins) = .error e2 →
          (generateCode retrieve db llm parse ins).1 = .error e2
            ∧ (generateCode retrieve db llm parse ins).2.length = 3) := by
  have hgen : generateCode retrieve db llm parse ins
      = genGo llm parse (contextsOf retrieve db ins) 3 0 ins [] := rfl
  have hh1 : hintedInstr ins 1 = ins ++ hintText := rfl
  have hh2 : hintedInstr ins 2 = ins ++ hintText ++ hintText := rfl
  have hh0 : hintedInstr ins 0 = ins := rfl
  rcases genGo3_char llm parse (contextsOf retrieve db ins) ins with
      ⟨r, h0, heq⟩ | ⟨e0, r, h0, h1, heq⟩ | ⟨e0, e1, r, h0, h1, h2, heq⟩ | ⟨e0, e1, e2, h0, h1, h2, heq⟩
  · rw [hgen, heq]
    refine ⟨by simp, by simp, ?_, ?_, ?_⟩
    · intro j hj
      simp at hj
      subst hj
      rfl
    · intro f0 f1 rr hc0
      rw [hh0, h0] at hc0
      exact absurd hc0 (by simp)
    · intro f0 f1 f2 hc0
      rw [hh0, h0] at hc0
      exact absurd hc0 (by simp)
  · rw [hgen, heq]
    refine ⟨by simp, by simp, ?_, ?_, ?_⟩
    · intro j hj
      simp at hj
      match j, hj with
      | 0, _ => rfl
      | 1, _ => rfl
    · intro f0 f1 rr _ hc1
      rw [hh1, h1] at hc1
      exact absurd hc1 (by simp)
    · intro f0 f1 f2 _ hc1
      rw [hh1, h1] at hc1
      exact absurd hc1 (by simp)
  · rw [hgen, heq]
    refine ⟨by simp, by simp, ?_, ?_, ?_⟩
    · intro j hj
      simp at hj
      match j, hj with
      | 0, _ => rfl
      | 1, _ => rfl
      | 2, _ => rfl
    · intro f0 f1 rr _ _ hc2
      rw [hh2, h2] at hc2
      simp at hc2
      subst hc2
      exact ⟨rfl, rfl, hintedInstr_ne ins 1 (by omega), hintedInstr_ne ins 2 (by omega)⟩
    · intro f0 f1 f2 _ _ hc2
      rw [hh2, h2] at hc2
      exact absurd hc2 (by simp)
  · rw [hgen, heq]
    refine ⟨by simp, by simp, ?_, ?_, ?_⟩
    · intro j hj
      simp at hj
      match j, hj with
      | 0, _ => rfl
      | 1, _ => rfl
      | 2, _ => rfl
    · intro f0 f1 rr _ _ hc2
      rw [hh2, h2] at hc2
      exact absurd hc2 (by simp)
    · intro f0 f1 f2 _ _ hc2
      rw [hh2, h2] at hc2
      simp at hc2
      subst hc2
      exact ⟨rfl, rfl⟩



theorem generateCode_retry_spec_witness :
    (generateCode retrieveOne "" llmC6 parseC67 "ins").1 = Except.ok 7
      ∧ (generateCode retrieveOne "" llmC6 parseC67 "ins").2.length = 3
      ∧ hintedInstr "ins" 1 ≠ hintedInstr "ins" 0 := by
  obtain ⟨ha, hb, hc, _⟩ :=
    (generateCode_retry_spec retrieveOne "" llmC6 parseC67 "ins").2.2.2.1
      (GenError.invalidJson "LLM produced invalid JSON")
      (GenError.invalidJson "LLM produced invalid JSON") 7 rfl rfl rfl
  exact ⟨ha, hb, hc⟩

/-- Claim C7, counterexample.  The claim says an LLM transport error makes
`generate_code` fail immediately without entering the retry loop.  In the
source the `except Exception` clause of the loop catches the
`RuntimeError` raised by `generate_assistant_response` too: with an
oracle that raises a transport error on attempt 1 and returns parseable
output on attempt 2, `generate_code` returns the parsed result after two
LLM calls instead of failing. -/
theorem generateCode_fails_fast_is_false :
    attemptCall llmC7 parseC67 0 "ins" (contextsOf retrieveOne "" "ins")
        = Except.error (GenError.backend "Ollama inference failed: connection refused")
      ∧ (generateCode retrieveOne "" llmC7 parseC67 "ins").1 = Except.ok 7
      ∧ (generateCode retrieveOne "" llmC7 parseC67 "ins").2.length = 2 :=
  ⟨rfl, rfl, rfl⟩

/-- Claim C7, amended.  A transport error raised by the LLM invocation is
caught by the same retry loop as parse failures: the attempt is retried
with the corrective hint appended, and the error is surfaced only when it
also ends the final attempt (that case is the all-fail branch of C6). -/
theorem generateCode_backend_error_retried {R : Type} (retrieve : String → List String)
    (db : String) (llm : Nat → String → List String → Except GenError String)
    (parse : String → Except GenError R) (ins : String) (msg : String) (r : R)
    (h0 : attemptCall llm parse 0 (hintedInstr ins 0) (contextsOf retrieve db ins)
        = .error (.backend msg))
    (h1 : attemptCall llm parse 1 (hintedInstr ins 1) (contextsOf retrieve db ins) = .ok r) :
    (generateCode retrieve db llm parse ins).1 = .ok r
      ∧ (generateCode retrieve db llm parse ins).2.length = 2 := by
  have hgen : generateCode retrieve db llm parse ins
      = genGo llm parse (contextsOf retrieve db ins) 3 0 ins [] := rfl
  have hh0 : hintedInstr ins 0 = ins := rfl
  have hh1 : hintedInstr ins 1 = ins ++ hintText := rfl
  rw [hh0] at h0
  rw [hh1] at h1
  rw [hgen]
  refine ⟨?_, ?_⟩ <;> simp [genGo, h0, h1]

theorem generateCode_backend_error_retried_witness :
    (generateCode retrieveOne "" llmC7 parseC67 "ins").1 = Except.ok 7
      ∧ (generateCode retrieveOne "" llmC7 parseC67 "ins").2.length = 2 :=
  generateCode_backend_error_retried retrieveOne "" llmC7 parseC67 "ins"
    "Ollama inference failed: connection refused" 7 rfl rfl



theorem containsDotDot_append (pre post : List Char) :
    containsDotDot (pre ++ '.' :: '.' :: post) = true := by
  induction pre with
  | nil => simp [containsDotDot]
  | cons c cs ih =>
    cases cs with
    | nil => simp [containsDotDot]
    | cons d ds =>
      rw [List.cons_append, List.cons_append]
      rw [containsDotDot]
      rw [← List.cons_append]
      simp only [ih, Bool.or_true]


/-- Claim C8.  Security sanitization rewrites, without raising: a file
entry whose path is absolute or contains a parent-directory traversal
segment gets its path replaced by its base filename, and a file content
longer than 1 MiB is truncated to 1 MiB with the truncation marker
appended. -/
theorem sanitizeFile_spec (f : AFile) :
    ((isAbsolutePath f.path ∨ hasTraversalSegment f.path) →
        (sanitizeFile f).path = pathBasename f.path)
      ∧ (maxContentLength < f.content.length →
        (sanitizeFile f).content = f.content.take maxContentLength ++ truncationMarker) := by
  constructor
  · intro h
    have hcond : (startsWithSlash f.path || containsDotDot f.path) = true := by
      rcases h with ⟨rest, hrest⟩ | ⟨pre, post, hsplit, _, _⟩
      · rw [hrest]
        rfl
      · rw [hsplit, containsDotDot_append]
        simp
    rw [sanitizeFile]
    simp only [hcond, if_true]
  · intro h
    rw [sanitizeFile]
    simp only [if_pos h]

theorem sanitizeFile_spec_witness :
    (sanitizeFile fileC8).path = "passwd".toList
      ∧ (sanitizeFile fileC8).content
          = List.replicate maxContentLength 'a' ++ truncationMarker := by
  have h := sanitizeFile_spec fileC8
  constructor
  · have hp := h.1 (Or.inr ⟨[], "/../etc/passwd".toList, by decide,
      Or.inl rfl, Or.inr ⟨"../etc/passwd".toList, by decide⟩⟩)
    rw [hp]
    decide
  · have hlen : maxContentLength < fileC8.content.length := by
      show maxContentLength < (List.replicate (maxContentLength + 1) 'a').length
      rw [List.length_replicate]
      omega
    have hc := h.2 hlen
    rw [hc]
    show (List.replicate (maxContentLength + 1) 'a').take maxContentLength ++ truncationMarker = _
    rw [List.take_replicate]
    congr 2



theorem hasKey_setKey_self (k : String) (v : JVal) (l : List (String × JVal)) :
    hasKey k (setKey k v l) = true := by
  induction l with
  | nil => simp [setKey, hasKey]
  | cons p rest ih =>
    rcases p with ⟨k2, v2⟩
    by_cases hk : k2 == k
    · simp [setKey, hasKey, hk]
    · simp only [setKey, hasKey, hk]
      simp [ih, hk]

theorem hasKey_setKey_mono (k k2 : String) (v : JVal) (l : List (String × JVal))
    (h : hasKey k l = true) : hasKey k (setKey k2 v l) = true := by
  induction l with
  | nil => simp [hasKey] at h
  | cons p rest ih =>
    rcases p with ⟨k3, v3⟩
    rw [hasKey] at h
    by_cases hk : k3 == k2
    · simp only [setKey, hk, if_true, hasKey]
      exact h
    · simp only [setKey, hk, if_false, Bool.false_eq_true, hasKey]
      rcases Bool.or_eq_true_iff.1 h with h1 | h1
      · simp [h1]
      · simp [ih h1]

theorem getKey?_setKey_self (k : String) (v : JVal) (l : List (String × JVal)) :
    getKey? k (setKey k v l) = some v := by
  induction l with
  | nil => simp [setKey, getKey?]
  | cons p rest ih =>
    rcases p with ⟨k2, v2⟩
    by_cases hk : k2 == k
    · simp [setKey, getKey?, hk]
    · simp only [setKey, hk, if_false, Bool.false_eq_true, getKey?]
      simp [hk, ih]

theorem backfillAction_key (fields : List (String × JVal)) :
    hasKey "action" (backfillAction fields) = true := by
  rw [backfillAction]
  by_cases h : hasKey "action" fields
  · simp [h]
  · simp [h, hasKey_setKey_self]

theorem backfillLanguage_key (fields f2 : List (String × JVal))
    (h : backfillLanguage fields = some f2) :
    hasKey "language" f2 = true ∧ ∀ k, hasKey k fields = true → hasKey k f2 = true := by
  rw [backfillLanguage] at h
  by_cases hl : hasKey "language" fields
  · rw [if_pos hl] at h
    have : fields = f2 := by simpa using h
    subst this
    exact ⟨hl, fun _ hk => hk⟩
  · rw [if_neg hl] at h
    rcases hp : (getKey? "path" fields).getD (.jstr "") with _ | _ | _ | p | _ | _ <;> rw [hp] at h <;>
      simp at h
    subst h
    exact ⟨hasKey_setKey_self _ _ _, fun k hk => hasKey_setKey_mono k _ _ _ hk⟩

theorem backfillContent_key (fields : List (String × JVal)) :
    hasKey "content" (backfillContent fields) = true
      ∧ ∀ k, hasKey k fields = true → hasKey k (backfillContent fields) = true := by
  rw [backfillContent]
  by_cases h : hasKey "content" fields
  · simp [h]
  · simp only [h, Bool.false_eq_true, if_false]
    exact ⟨hasKey_setKey_self _ _ _, fun k hk => hasKey_setKey_mono k _ _ _ hk⟩

theorem normalizeFile_keys (f f2 : JVal) (h : normalizeFile f = some f2) :
    ∀ fields, f2 = .jobj fields →
      hasKey "action" fields = true ∧ hasKey "language" fields = true
        ∧ hasKey "content" fields = true := by
  intro fields hf2
  subst hf2
  cases f with
  | jobj fs0 =>
    rw [normalizeFile] at h
    rcases hbl : backfillLanguage (backfillAction fs0) with _ | f1
    · rw [hbl] at h
      simp at h
    · rw [hbl] at h
      simp at h
      have hfields : fields = backfillContent f1 := h.symm
      subst hfields
      obtain ⟨hl, hmono⟩ := backfillLanguage_key _ _ hbl
      obtain ⟨hc, hcmono⟩ := backfillContent_key f1
      exact ⟨hcmono _ (hmono _ (backfillAction_key fs0)), hcmono _ hl, hc⟩
  | jnull => simp [normalizeFile] at h
  | jbool b => simp [normalizeFile] at h
  | jnum n => simp [normalizeFile] at h
  | jstr s => simp [normalizeFile] at h
  | jarr xs => simp [normalizeFile] at h

theorem recoveredData_keys (data : List (String × JVal)) :
    hasKey "summary" (recoveredData data) = true
      ∧ hasKey "assumptions" (recoveredData data) = true
      ∧ hasKey "files" (recoveredData data) = true := by
  refine ⟨rfl, rfl, rfl⟩

theorem backfillTop_keys (data : List (String × JVal)) :
    hasKey "summary" (backfillTop data) = true
      ∧ hasKey "assumptions" (backfillTop data) = true
      ∧ hasKey "files" (backfillTop data) = true := by
  rw [backfillTop]
  have hs : hasKey "summary" (backfillSummary (recoverLegacy data)) = true := by
    rw [backfillSummary]
    by_cases h : hasKey "summary" (recoverLegacy data)
    · simp [h]
    · simp [h, hasKey_setKey_self]
  have ha : hasKey "assumptions" (backfillAssumptions (backfillSummary (recoverLegacy data)))
      = true := by
    rw [backfillAssumptions]
    by_cases h : hasKey "assumptions" (backfillSummary (recoverLegacy data))
    · simp [h]
    · simp [h, hasKey_setKey_self]
  have hs2 : hasKey "summary" (backfillAssumptions (backfillSummary (recoverLegacy data)))
      = true := by
    rw [backfillAssumptions]
    by_cases h : hasKey "assumptions" (backfillSummary (recoverLegacy data))
    · simp [h, hs]
    · simp [h, hasKey_setKey_mono _ _ _ _ hs]
  refine ⟨?_, ?_, ?_⟩ <;> rw [backfillFiles] <;>
    by_cases h : hasKey "files" (backfillAssumptions (backfillSummary (recoverLegacy data)))
  · simp [h, hs2]
  · simp [h, hasKey_setKey_mono _ _ _ _ hs2]
  · simp [h, ha]
  · simp [h, hasKey_setKey_mono _ _ _ _ ha]
  · simp [h]
  · simp [h, hasKey_setKey_self]

theorem mapM_option_mem {α β : Type} (g : α → Option β) :
    ∀ (l : List α) (l2 : List β), l.mapM g = some l2 → ∀ b ∈ l2, ∃ a ∈ l, g a = some b := by
  intro l
  induction l with
  | nil =>
    intro l2 h b hb
    rw [List.mapM_nil] at h
    have : l2 = [] := by simpa using h.symm
    subst this
    simp at hb
  | cons a as ih =>
    intro l2 h b hb
    rw [List.mapM_cons] at h
    rcases hga : g a with _ | b0 <;> rw [hga] at h
    · simp at h
    · rcases hmas : as.mapM g with _ | bs <;> rw [hmas] at h
      · simp at h
      · simp at h
        rw [← h] at hb
        rcases List.mem_cons.1 hb with hb | hb
        · exact ⟨a, List.mem_cons_self _ _, by rw [hga, hb]⟩
        · rcases ih bs hmas b hb with ⟨a2, ha2, hga2⟩
          exact ⟨a2, List.mem_cons_of_mem _ ha2, hga2⟩




/-- Claim C9, amended.  Whenever `_normalize_schema` completes on a
mapping payload, its output carries the top-level keys `summary`,
`assumptions` and `files`, and every mapping entry of a list-valued
`files` carries `action`, `language` and `content`.  The key `path` is
not backfilled, so the strict construction can still fail (see the
counterexample). -/
theorem normalizeSchema_fields (data out : List (String × JVal))
    (h : normalizeSchema data = some out) :
    hasKey "summary" out = true
      ∧ hasKey "assumptions" out = true
      ∧ hasKey "files" out = true
      ∧ ∀ fs, getKey? "files" out = some (JVal.jarr fs) →
          ∀ f ∈ fs, ∀ fields, f = JVal.jobj fields →
            hasKey "action" fields = true ∧ hasKey "language" fields = true
              ∧ hasKey "content" fields = true := by
  obtain ⟨hs, ha, hf⟩ := backfillTop_keys data
  rw [normalizeSchema] at h
  rcases hfd : (getKey? "files" (backfillTop data)).getD .jnull with _ | _ | _ | sv | fs0 | fl0 <;>
    rw [hfd] at h
  · simp at h
  · simp at h
  · simp at h
  · have hout : out = backfillTop data := by simpa using h.symm
    subst hout
    refine ⟨hs, ha, hf, ?_⟩
    intro fs hfs
    rw [hfs] at hfd
    simp at hfd
  · dsimp only at h
    rcases hmm : fs0.mapM normalizeFile with _ | fs2 <;> rw [hmm] at h
    · simp at h
    · have hout : out = setKey "files" (JVal.jarr fs2) (backfillTop data) := by simpa using h.symm
      subst hout
      refine ⟨hasKey_setKey_mono _ _ _ _ hs, hasKey_setKey_mono _ _ _ _ ha,
        hasKey_setKey_self _ _ _, ?_⟩
      intro fs hfs
      rw [getKey?_setKey_self] at hfs
      have hfs2 : fs = fs2 := by simpa using hfs.symm
      subst hfs2
      intro f hfmem fields hf2
      rcases mapM_option_mem normalizeFile fs0 fs hmm f hfmem with ⟨g, _, hg⟩
      exact normalizeFile_keys g f hg fields hf2
  · have hout : out = backfillTop data := by simpa using h.symm
    subst hout
    refine ⟨hs, ha, hf, ?_⟩
    intro fs hfs
    rw [hfs] at hfd
    simp at hfd


/-- Claim C9, counterexample.  The claim says normalization guarantees all
fields required by the strict schema, so the final construction never
fails.  On the payload `\x7b"files": [\x7b\x7d]\x7d` normalization
succeeds but never adds `path` to the empty file entry, and the strict
construction fails. -/
theorem normalizeSchema_not_sufficient :
    (normalizeSchema dataC9).isSome = true
      ∧ Option.bind (normalizeSchema dataC9) toAssistantResponse = none :=
  ⟨rfl, rfl⟩

theorem normalizeSchema_fields_witness :
    hasKey "summary" outC9 = true ∧ hasKey "assumptions" outC9 = true
      ∧ hasKey "files" outC9 = true := by
  have h := normalizeSchema_fields dataC9 outC9 rfl
  exact ⟨h.1, h.2.1, h.2.2.1⟩

end Services
